import Mathlib

/-!
Verification of the GitLab merge-request review-comment sync tool.

The repository's one piece of non-trivial logic is `findLineInDiff` in
`skills/gitlab-review/api.mjs`: a unified-diff line locator mapping a target
"new" line number to a `{oldLine, newLine}` anchor, used by `postDiscussion`
to decide between a positional discussion and a fallback note.

The embedding below mirrors the JavaScript source, working on the character
lists underlying the strings:
  * `diffText.split(/^@@/m)` is `splitHunks` (a cut at every occurrence of
    "@@" at the start of a line; the match itself is removed);
  * `hunk.match(/ -(\d+),?\d* \+(\d+),?\d* @@/)` is `findHeader` (leftmost
    occurrence of the deterministic header pattern, greedy digit runs);
  * `hunk.split('\n')` is `splitLines`, `line.startsWith(c)` is `headIs`;
  * the per-hunk walk with its early exit is `scanLines`;
  * the per-comment dispatch loop of `postDiscussion` is modelled as a pure
    function over oracles giving the remote service's accept/reject answers,
    producing the list of API requests issued and the outcome per comment.
JavaScript numbers are modelled as exact integers (`Int` for line counters
and targets, `Nat` for parsed header values); all claim-relevant values are
far below any double-precision limit.
-/

namespace GitLabReview

/-- Result type of the locator: `{ oldLine: integer | null, newLine: integer }`. -/
structure LinePos where
  oldLine : Option Int
  newLine : Int
deriving Repr, DecidableEq

/-- Longest digit prefix of a character list, with the remainder
(the greedy `\d+` / `\d*` of the header regex). -/
def takeDigits : List Char → List Char × List Char
  | [] => ([], [])
  | c :: rest =>
    if c.isDigit then
      let p := takeDigits rest
      (c :: p.1, p.2)
    else ([], c :: rest)

/-- Decimal value of a digit run, as `parseInt` reads the capture group. -/
def digitsToNat (ds : List Char) : Nat :=
  ds.foldl (fun n c => 10 * n + (c.toNat - Char.toNat '0')) 0

/-- The `,?\d*` part of the header regex: an optional comma followed by a
greedy digit run (the hunk's line count, which the source discards). -/
def skipCount : List Char → List Char
  | ',' :: rest => (takeDigits rest).2
  | l => l

/-- Attempt to match ` -(\d+),?\d* \+(\d+),?\d* @@` at the head of the list,
returning the two captured starts. Backtracking in the JavaScript regex can
never move the end of a digit run (whatever `\d+` gives back, `\d*` must
re-absorb before the mandatory space), so this deterministic parse is
equivalent to the regex at a fixed position. -/
def parseHeaderAt : List Char → Option (Nat × Nat)
  | ' ' :: '-' :: r0 =>
    let p1 := takeDigits r0
    if p1.1 = [] then none else
    match skipCount p1.2 with
    | ' ' :: '+' :: r1 =>
      let p2 := takeDigits r1
      if p2.1 = [] then none else
      match skipCount p2.2 with
      | ' ' :: '@' :: '@' :: _ => some (digitsToNat p1.1, digitsToNat p2.1)
      | _ => none
    | _ => none
  | _ => none

/-- `hunk.match(/ -(\d+),?\d* \+(\d+),?\d* @@/)`: the leftmost position at
which the header pattern matches, anywhere in the segment. -/
def findHeader : List Char → Option (Nat × Nat)
  | [] => none
  | c :: rest =>
    match parseHeaderAt (c :: rest) with
    | some r => some r
    | none => findHeader rest

/-- Is this character a JavaScript line terminator (after which a multiline
`^` matches)? -/
def isLineTerm (c : Char) : Bool :=
  c = '\n' || c = '\r' || c = ' ' || c = ' '

/-- Worker for `split(/^@@/m)`: walk the characters keeping the current
segment (reversed) and whether the position is at a line start; cut whenever
"@@" occurs at a line start, dropping the matched "@@" itself. -/
def splitHunksAux : List Char → List Char → Bool → List (List Char)
  | [], acc, _ => [acc.reverse]
  | '@' :: '@' :: rest, acc, true => acc.reverse :: splitHunksAux rest [] false
  | c :: rest, acc, _ => splitHunksAux rest (c :: acc) (isLineTerm c)

/-- `diffText.split(/^@@/m)`: segments of the text between occurrences of
"@@" at line starts (position 0 counts as a line start). -/
def splitHunks (s : List Char) : List (List Char) :=
  splitHunksAux s [] true

/-- `hunk.split('\n')`: split at every newline, keeping empty segments. -/
def splitLines : List Char → List (List Char)
  | [] => [[]]
  | '\n' :: rest => [] :: splitLines rest
  | c :: rest =>
    match splitLines rest with
    | l :: ls => (c :: l) :: ls
    | [] => [[c]]

/-- `line.startsWith(c)` for a one-character prefix. -/
def headIs (l : List Char) (c : Char) : Bool :=
  match l with
  | x :: _ => x = c
  | [] => false

/-- The body walk of one hunk, from the source's inner `for` loop:
removed lines advance `oldLine`; added lines are compared against the target
and advance `newLine`; context lines are compared and advance both; after
each line, stop the hunk once `newLine` exceeds the target. -/
def scanLines (target : Int) : List (List Char) → Int → Int → Option LinePos
  | [], _, _ => none
  | line :: rest, oldLine, newLine =>
    if headIs line '-' then
      if newLine > target then none
      else scanLines target rest (oldLine + 1) newLine
    else if headIs line '+' then
      if newLine = target then some ⟨none, newLine⟩
      else if newLine + 1 > target then none
      else scanLines target rest oldLine (newLine + 1)
    else
      if newLine = target then some ⟨some oldLine, newLine⟩
      else if newLine + 1 > target then none
      else scanLines target rest (oldLine + 1) (newLine + 1)

/-- One iteration of the source's outer loop body: match the header pattern
anywhere in the segment (skip the hunk if absent), seed the counters from the
two captures, and walk the segment's lines from the second one on. -/
def scanHunk (hunk : List Char) (target : Int) : Option LinePos :=
  match findHeader hunk with
  | none => none
  | some p => scanLines target ((splitLines hunk).drop 1) (Int.ofNat p.1) (Int.ofNat p.2)

/-- The outer loop over hunks: first match wins, a hunk yielding nothing
(malformed header or exhausted walk) passes control to the next hunk. -/
def findInHunks : List (List Char) → Int → Option LinePos
  | [], _ => none
  | h :: hs, t =>
    match scanHunk h t with
    | some pos => some pos
    | none => findInHunks hs t

/-- `findLineInDiff(diffText, targetNewLine)` from `api.mjs`: `!diffText`
(the empty string) returns null; otherwise split at "@@" line starts, drop
the prelude before the first hunk (`slice(1)`), and scan the hunks. -/
def findLineInDiff (diffText : String) (targetNewLine : Int) : Option LinePos :=
  if diffText.data.isEmpty then none
  else findInHunks ((splitHunks diffText.data).drop 1) targetNewLine

/-- Instrumented variant of `scanLines` that also reports which diff line
produced the match; erasing the second component recovers `scanLines`. -/
def scanLinesW (target : Int) : List (List Char) → Int → Int → Option (LinePos × List Char)
  | [], _, _ => none
  | line :: rest, oldLine, newLine =>
    if headIs line '-' then
      if newLine > target then none
      else scanLinesW target rest (oldLine + 1) newLine
    else if headIs line '+' then
      if newLine = target then some (⟨none, newLine⟩, line)
      else if newLine + 1 > target then none
      else scanLinesW target rest oldLine (newLine + 1)
    else
      if newLine = target then some (⟨some oldLine, newLine⟩, line)
      else if newLine + 1 > target then none
      else scanLinesW target rest (oldLine + 1) (newLine + 1)

/-- Instrumented variant of `scanHunk`. -/
def scanHunkW (hunk : List Char) (target : Int) : Option (LinePos × List Char) :=
  match findHeader hunk with
  | none => none
  | some p => scanLinesW target ((splitLines hunk).drop 1) (Int.ofNat p.1) (Int.ofNat p.2)

/-- Instrumented variant of `findInHunks`. -/
def findInHunksW : List (List Char) → Int → Option (LinePos × List Char)
  | [], _ => none
  | h :: hs, t =>
    match scanHunkW h t with
    | some r => some r
    | none => findInHunksW hs t

/-- Instrumented variant of `findLineInDiff`, reporting the matched line. -/
def findLineInDiffW (diffText : String) (targetNewLine : Int) : Option (LinePos × List Char) :=
  if diffText.data.isEmpty then none
  else findInHunksW ((splitHunks diffText.data).drop 1) targetNewLine

/-- Re-insert the "@@" delimiters removed by `splitHunks`; joining the
segments this way must reconstruct the original text. -/
def joinHunks : List (List Char) → List Char
  | [] => []
  | [l] => l
  | l :: l2 :: ls => l ++ '@' :: '@' :: joinHunks (l2 :: ls)

/-- The spec's single-hunk example text: header `@@ -1,3 +1,4 @@` with body
`[" ctxA", "+added1", " ctxB", "-removed1", " ctxC"]`. -/
def exampleDiff : String :=
  "@@ -1,3 +1,4 @@\n ctxA\n+added1\n ctxB\n-removed1\n ctxC"

/-- A review comment as consumed by `postDiscussion`:
`{ file, line, description, suggestion }`. -/
structure ReviewComment where
  file : String
  line : Int
  description : String
  suggestion : Option String
deriving Repr, DecidableEq

/-- One entry of the MR's changed-file list: `{ new_path, old_path, diff }`.
A missing or empty diff is modelled as the empty string (both are falsy at
the source's `fileChange.diff` guard). -/
structure FileChange where
  new_path : String
  old_path : String
  diff : String
deriving Repr, DecidableEq

/-- The MR's pinned diff references, fetched once per run. -/
structure DiffRefs where
  base_sha : String
  head_sha : String
  start_sha : String
deriving Repr, DecidableEq

/-- The position payload built for a positional discussion post. -/
structure DiffPosition where
  base_sha : String
  head_sha : String
  start_sha : String
  new_path : String
  old_path : String
  position_type : String
  new_line : Int
  old_line : Option Int
deriving Repr, DecidableEq

/-- `changes.find(c => c.new_path === comment.file || c.old_path === comment.file)`:
first change whose new path, or failing that old path, equals the file. -/
def findFileChange (changes : List FileChange) (file : String) : Option FileChange :=
  changes.find? (fun ch => ch.new_path == file || ch.old_path == file)

/-- The `positionData` object assembled in `postDiscussion` from the pinned
diff refs, the matched change and the locator's answer. -/
def buildPosition (refs : DiffRefs) (ch : FileChange) (li : LinePos) : DiffPosition :=
  ⟨refs.base_sha, refs.head_sha, refs.start_sha, ch.new_path, ch.old_path, "text",
   li.newLine, li.oldLine⟩

/-- The `positionData` computed for one comment: requires a matched change
with a non-empty diff and a successful `findLineInDiff` lookup. -/
def computePositionData (changes : List FileChange) (refs : DiffRefs)
    (c : ReviewComment) : Option DiffPosition :=
  match findFileChange changes c.file with
  | some ch =>
    if ch.diff = "" then none
    else (findLineInDiff ch.diff c.line).map (buildPosition refs ch)
  | none => none

/-- How one comment ends up: accepted positional post, accepted fallback
note, or both attempts failed (each failure is caught and logged, never
rethrown). -/
inductive PostOutcome where
  | positional
  | fallback
  | failed
deriving Repr, DecidableEq

/-- Outcome of one iteration of the `postDiscussion` loop, with the remote
service's accept/reject answers supplied by the oracles `posOk` (positional
discussion endpoint) and `fbOk` (notes endpoint). -/
def processComment (changes : List FileChange) (refs : DiffRefs)
    (posOk fbOk : ReviewComment → Bool) (c : ReviewComment) : PostOutcome :=
  match computePositionData changes refs c with
  | some _ => if posOk c then .positional else if fbOk c then .fallback else .failed
  | none => if fbOk c then .fallback else .failed

/-- Outcomes of the whole loop, in comment order. -/
def runOutcomes (changes : List FileChange) (refs : DiffRefs)
    (posOk fbOk : ReviewComment → Bool) (comments : List ReviewComment) : List PostOutcome :=
  comments.map (processComment changes refs posOk fbOk)

/-- Occurrences of one outcome (the source's `successCount` counts
`positional`, its `fallbackCount` counts `fallback`). -/
def countOutcome (o : PostOutcome) : List PostOutcome → Nat
  | [] => 0
  | x :: xs => (if x = o then 1 else 0) + countOutcome o xs

/-- An HTTP request issued by `postDiscussion`: a positional discussion
post, a fallback note, or the final summary note. -/
inductive ApiAction where
  | discussionPost (file : String) (line : Int) (pos : DiffPosition)
  | fallbackNote (file : String) (line : Int)
  | summaryNote (total success fallback : Nat)
deriving Repr, DecidableEq

/-- Requests issued while processing one comment: a positional post if a
position was computed, followed by a fallback note when the positional post
was absent or rejected (the rejection is caught, logged and degrades to the
fallback). -/
def commentActions (changes : List FileChange) (refs : DiffRefs)
    (posOk _fbOk : ReviewComment → Bool) (c : ReviewComment) : List ApiAction :=
  match computePositionData changes refs c with
  | some p =>
    if posOk c then [.discussionPost c.file c.line p]
    else [.discussionPost c.file c.line p, .fallbackNote c.file c.line]
  | none => [.fallbackNote c.file c.line]

/-- Requests issued by the loop over all comments, in order. -/
def allCommentActions (changes : List FileChange) (refs : DiffRefs)
    (posOk fbOk : ReviewComment → Bool) : List ReviewComment → List ApiAction
  | [] => []
  | c :: cs =>
    commentActions changes refs posOk fbOk c ++ allCommentActions changes refs posOk fbOk cs

/-- The full request trace of `postDiscussion`. `fetchOk` is whether the two
initial fetches (MR metadata and diffs) succeed; on failure the whole body is
skipped by the outer catch. On success every comment is processed and then
exactly one summary note is issued; a failing summary post is caught inside
`postSummary`, so it contributes to the trace regardless of its outcome. -/
def postDiscussionActions (fetchOk : Bool) (changes : List FileChange) (refs : DiffRefs)
    (posOk fbOk : ReviewComment → Bool) (comments : List ReviewComment) : List ApiAction :=
  if fetchOk then
    allCommentActions changes refs posOk fbOk comments
      ++ [.summaryNote comments.length
            (countOutcome .positional (runOutcomes changes refs posOk fbOk comments))
            (countOutcome .fallback (runOutcomes changes refs posOk fbOk comments))]
  else []

/-- Is this request the summary note? -/
def isSummaryNote : ApiAction → Bool
  | .summaryNote _ _ _ => true
  | _ => false

/-! ## Theorems -/

/-- Erasing the matched line from the instrumented walk gives the walk of
the source. -/
theorem scanLines_eq_scanLinesW (t : Int) (lines : List (List Char)) :
    ∀ o n, scanLines t lines o n = (scanLinesW t lines o n).map Prod.fst := by
  induction lines with
  | nil => intro o n; rfl
  | cons line rest ih =>
    intro o n
    simp only [scanLines, scanLinesW]
    split_ifs <;> simp [ih]

/-- Erasing the matched line from the instrumented hunk scan gives the hunk
scan of the source. -/
theorem scanHunk_eq_scanHunkW (h : List Char) (t : Int) :
    scanHunk h t = (scanHunkW h t).map Prod.fst := by
  unfold scanHunk scanHunkW
  cases findHeader h with
  | none => rfl
  | some p => exact scanLines_eq_scanLinesW t _ _ _

/-- Erasing the matched line from the instrumented hunk loop gives the hunk
loop of the source. -/
theorem findInHunks_eq_findInHunksW (hs : List (List Char)) (t : Int) :
    findInHunks hs t = (findInHunksW hs t).map Prod.fst := by
  induction hs with
  | nil => rfl
  | cons h rest ih =>
    simp only [findInHunks, findInHunksW]
    rw [scanHunk_eq_scanHunkW]
    cases scanHunkW h t with
    | none => simpa using ih
    | some r => rfl

/-- Erasing the matched line from the instrumented locator gives the
locator of the source. -/
theorem findLineInDiff_eq_findLineInDiffW (d : String) (t : Int) :
    findLineInDiff d t = (findLineInDiffW d t).map Prod.fst := by
  unfold findLineInDiff findLineInDiffW
  split_ifs with h
  · rfl
  · exact findInHunks_eq_findInHunksW _ _

/-- Any match produced by the walk has `newLine` equal to the target, comes
from a line that does not begin with `-`, and carries `oldLine = null`
exactly when that line begins with `+`. -/
theorem scanLinesW_sound (t : Int) (lines : List (List Char)) :
    ∀ o n p ln, scanLinesW t lines o n = some (p, ln) →
      p.newLine = t ∧ (p.oldLine = none ↔ headIs ln '+' = true) ∧ headIs ln '-' = false := by
  induction lines with
  | nil => intro o n p ln h; simp [scanLinesW] at h
  | cons line rest ih =>
    intro o n p ln h
    simp only [scanLinesW] at h
    by_cases h1 : headIs line '-' = true
    · rw [if_pos h1] at h
      by_cases h2 : n > t
      · rw [if_pos h2] at h; exact Option.noConfusion h
      · rw [if_neg h2] at h; exact ih _ _ _ _ h
    · rw [if_neg h1] at h
      by_cases h3 : headIs line '+' = true
      · rw [if_pos h3] at h
        by_cases h4 : n = t
        · rw [if_pos h4] at h
          obtain ⟨hp, hl⟩ : (⟨none, n⟩ : LinePos) = p ∧ line = ln := by simpa using h
          subst hp; subst hl
          exact ⟨h4, by simp [h3], by simpa using h1⟩
        · rw [if_neg h4] at h
          by_cases h5 : n + 1 > t
          · rw [if_pos h5] at h; exact Option.noConfusion h
          · rw [if_neg h5] at h; exact ih _ _ _ _ h
      · rw [if_neg h3] at h
        by_cases h6 : n = t
        · rw [if_pos h6] at h
          obtain ⟨hp, hl⟩ : (⟨some o, n⟩ : LinePos) = p ∧ line = ln := by simpa using h
          subst hp; subst hl
          exact ⟨h6, by simp [h3], by simpa using h1⟩
        · rw [if_neg h6] at h
          by_cases h7 : n + 1 > t
          · rw [if_pos h7] at h; exact Option.noConfusion h
          · rw [if_neg h7] at h; exact ih _ _ _ _ h

/-- Lifting of `scanLinesW_sound` to one hunk. -/
theorem scanHunkW_sound (h : List Char) (t : Int) (p : LinePos) (ln : List Char)
    (hs : scanHunkW h t = some (p, ln)) :
    p.newLine = t ∧ (p.oldLine = none ↔ headIs ln '+' = true) ∧ headIs ln '-' = false := by
  unfold scanHunkW at hs
  cases hh : findHeader h with
  | none => rw [hh] at hs; exact absurd hs (by simp)
  | some q => rw [hh] at hs; exact scanLinesW_sound t _ _ _ _ _ hs

/-- Lifting of `scanLinesW_sound` to the hunk loop. -/
theorem findInHunksW_sound (hs : List (List Char)) (t : Int) :
    ∀ p ln, findInHunksW hs t = some (p, ln) →
      p.newLine = t ∧ (p.oldLine = none ↔ headIs ln '+' = true) ∧ headIs ln '-' = false := by
  induction hs with
  | nil => intro p ln h; simp [findInHunksW] at h
  | cons h rest ih =>
    intro p ln hyp
    simp only [findInHunksW] at hyp
    cases hh : scanHunkW h t with
    | none => rw [hh] at hyp; exact ih _ _ hyp
    | some r =>
      rw [hh] at hyp
      obtain ⟨p', ln'⟩ := r
      obtain ⟨hp, hl⟩ : p' = p ∧ ln' = ln := by simpa using hyp
      subst hp; subst hl
      exact scanHunkW_sound _ _ _ _ hh

/-- C1. Whenever `findLineInDiff` returns a position, its `newLine` equals
the target exactly; the matched diff line (exposed by the instrumented
locator, which erases to the source one) never begins with `-`, and the
position's `oldLine` is `null` exactly when that line begins with `+`
(added line); when the match is a context line, `oldLine` carries the
paired old line counter. -/
theorem findLineInDiff_found_properties (d : String) (t : Int) (p : LinePos)
    (h : findLineInDiff d t = some p) :
    p.newLine = t ∧
    ∃ ln, findLineInDiffW d t = some (p, ln) ∧
      (p.oldLine = none ↔ headIs ln '+' = true) ∧
      headIs ln '-' = false ∧
      (headIs ln '+' = false → ∃ o, p.oldLine = some o) := by
  rw [findLineInDiff_eq_findLineInDiffW] at h
  obtain ⟨pair, hw, hfst⟩ := Option.map_eq_some'.mp h
  obtain ⟨p', ln⟩ := pair
  have hp : p' = p := hfst
  subst hp
  have hsound : p'.newLine = t ∧ (p'.oldLine = none ↔ headIs ln '+' = true) ∧
      headIs ln '-' = false := by
    unfold findLineInDiffW at hw
    split_ifs at hw with hemp
    all_goals first
      | exact Option.noConfusion hw
      | exact findInHunksW_sound _ _ _ _ hw
  refine ⟨hsound.1, ln, hw, hsound.2.1, hsound.2.2, ?_⟩
  intro hplus
  cases hoption : p'.oldLine with
  | none => rw [hsound.2.1.mp hoption] at hplus; cases hplus
  | some o => exact ⟨o, rfl⟩

/-- Witness for C1 at the spec's example: target 2 matches the added line. -/
theorem findLineInDiff_found_properties_witness :
    (some (⟨none, 2⟩ : LinePos)).elim False
      (fun p => p.newLine = 2 ∧
        ∃ ln, findLineInDiffW exampleDiff 2 = some (p, ln) ∧
          (p.oldLine = none ↔ headIs ln '+' = true) ∧
          headIs ln '-' = false ∧
          (headIs ln '+' = false → ∃ o, p.oldLine = some o)) :=
  findLineInDiff_found_properties exampleDiff 2 ⟨none, 2⟩ (by decide)

/-- C2. The spec's five example lookups on the single-hunk text
`@@ -1,3 +1,4 @@` with body `[" ctxA", "+added1", " ctxB", "-removed1", " ctxC"]`. -/
theorem spec_example_vectors :
    findLineInDiff exampleDiff 1 = some ⟨some 1, 1⟩ ∧
    findLineInDiff exampleDiff 2 = some ⟨none, 2⟩ ∧
    findLineInDiff exampleDiff 3 = some ⟨some 2, 3⟩ ∧
    findLineInDiff exampleDiff 4 = some ⟨some 4, 4⟩ ∧
    findLineInDiff exampleDiff 99 = none :=
  ⟨by decide, by decide, by decide, by decide, by decide⟩

/-- C3. A hunk whose segment nowhere matches the header grammar is skipped
entirely — it yields no position — and the scan proceeds with the remaining
hunks unchanged; a malformed or missing header is never fatal. -/
theorem malformed_hunk_skipped (h : List Char) (hs : List (List Char)) (t : Int)
    (hmal : findHeader h = none) :
    scanHunk h t = none ∧ findInHunks (h :: hs) t = findInHunks hs t := by
  have h1 : scanHunk h t = none := by unfold scanHunk; rw [hmal]
  refine ⟨h1, ?_⟩
  simp only [findInHunks, h1]

/-- Witness for C3: a hunk with no header pattern is skipped and a later
well-formed hunk is still scanned. -/
theorem malformed_hunk_skipped_witness :
    scanHunk (String.data "no header here") 1 = none ∧
    findInHunks [String.data "no header here", String.data " -1,1 +1,1 @@\n x"] 1
      = findInHunks [String.data " -1,1 +1,1 @@\n x"] 1 :=
  malformed_hunk_skipped _ _ 1 (by decide)

/-- C4. Hunks are scanned independently in order and the first match wins:
a hunk that matches ends the search with its position, and a hunk whose scan
ends without a match (in particular through the early exit) hands over to
the remaining hunks unchanged. -/
theorem first_match_wins (h : List Char) (hs : List (List Char)) (t : Int) :
    (∀ p, scanHunk h t = some p → findInHunks (h :: hs) t = some p) ∧
    (scanHunk h t = none → findInHunks (h :: hs) t = findInHunks hs t) := by
  constructor
  · intro p hp; simp only [findInHunks, hp]
  · intro hn; simp only [findInHunks, hn]

/-- Witness for C4: a target present only in the second hunk is still found
after the first hunk's scan ends without a match. -/
theorem first_match_wins_witness :
    scanHunk (String.data " -1,2 +1,2 @@\n a\n b\n") 21 = none ∧
    findInHunks [String.data " -1,2 +1,2 @@\n a\n b\n",
        String.data " -10,2 +20,2 @@\n c\n d"] 21
      = findInHunks [String.data " -10,2 +20,2 @@\n c\n d"] 21 ∧
    findLineInDiff "@@ -1,2 +1,2 @@\n a\n b\n@@ -10,2 +20,2 @@\n c\n d" 21
      = some ⟨some 11, 21⟩ :=
  ⟨by decide, (first_match_wins _ _ 21).2 (by decide), by decide⟩

/-- A list of hunks none of which contains the header pattern yields
nothing. -/
theorem findInHunks_none_of_malformed (t : Int) (hs : List (List Char))
    (hmal : ∀ h ∈ hs, findHeader h = none) : findInHunks hs t = none := by
  induction hs with
  | nil => rfl
  | cons h rest ih =>
    have h1 : scanHunk h t = none := by
      unfold scanHunk; rw [hmal h (by simp)]
    simp only [findInHunks, h1]
    exact ih (fun x hx => hmal x (by simp [hx]))

/-- C5. `findLineInDiff` is a total Lean function over every string and
every integer target (so it cannot throw); on the empty string, and more
generally on any malformed text none of whose segments matches the header
grammar, it returns not-found. -/
theorem locate_total_not_found (d : String) (t : Int)
    (hmal : ∀ h ∈ (splitHunks d.data).drop 1, findHeader h = none) :
    findLineInDiff d t = none := by
  unfold findLineInDiff
  split_ifs with hemp
  · rfl
  · exact findInHunks_none_of_malformed t _ hmal

/-- Witness for C5: the empty string and a header-free text are not found. -/
theorem locate_total_not_found_witness :
    findLineInDiff "" 5 = none ∧ findLineInDiff "not a diff @@ at all" 5 = none :=
  ⟨locate_total_not_found "" 5 (by decide),
   locate_total_not_found "not a diff @@ at all" 5 (by decide)⟩

/-- With a nonpositive target and a new-start of at least 1, the walk stops
at its first line without ever matching (the counter already exceeds the
target and only grows). -/
theorem scanLines_none_of_nonpos (t : Int) (lines : List (List Char)) (o n : Int)
    (ht : t ≤ 0) (hn : 1 ≤ n) : scanLines t lines o n = none := by
  cases lines with
  | nil => rfl
  | cons line rest =>
    simp only [scanLines]
    by_cases h1 : headIs line '-' = true
    · rw [if_pos h1, if_pos (by omega : n > t)]
    · rw [if_neg h1]
      by_cases h3 : headIs line '+' = true
      · rw [if_pos h3, if_neg (by omega : ¬n = t), if_pos (by omega : n + 1 > t)]
      · rw [if_neg h3, if_neg (by omega : ¬n = t), if_pos (by omega : n + 1 > t)]

/-- Hunk-list lifting of `scanLines_none_of_nonpos`. -/
theorem findInHunks_none_of_nonpos (t : Int) (ht : t ≤ 0) (hs : List (List Char))
    (hstarts : ∀ h ∈ hs, ∀ a b, findHeader h = some (a, b) → 1 ≤ a ∧ 1 ≤ b) :
    findInHunks hs t = none := by
  induction hs with
  | nil => rfl
  | cons h rest ih =>
    have h1 : scanHunk h t = none := by
      unfold scanHunk
      cases hh : findHeader h with
      | none => rfl
      | some q =>
        obtain ⟨a, b⟩ := q
        have hb := (hstarts h (by simp) a b hh).2
        have hb' : (1 : Int) ≤ Int.ofNat b := by simpa using Int.ofNat_le.mpr hb
        exact scanLines_none_of_nonpos t _ _ _ ht hb'
    simp only [findInHunks, h1]
    exact ih (fun x hx a b hab => hstarts x (by simp [hx]) a b hab)

/-- C8. When every hunk header carries start values of at least 1, a target
line number that is zero or negative is never found. -/
theorem nonpositive_target_not_found (d : String) (t : Int) (ht : t ≤ 0)
    (hstarts : ∀ h ∈ (splitHunks d.data).drop 1, ∀ a b,
        findHeader h = some (a, b) → 1 ≤ a ∧ 1 ≤ b) :
    findLineInDiff d t = none := by
  unfold findLineInDiff
  split_ifs with hemp
  · rfl
  · exact findInHunks_none_of_nonpos t ht _ hstarts

/-- Witness for C8: target 0 on the spec's example hunk (starts 1 and 1). -/
theorem nonpositive_target_not_found_witness :
    findLineInDiff exampleDiff 0 = none := by
  refine nonpositive_target_not_found exampleDiff 0 (by decide) ?_
  intro h hm a b hab
  have hl : (splitHunks exampleDiff.data).drop 1
      = [String.data " -1,3 +1,4 @@\n ctxA\n+added1\n ctxB\n-removed1\n ctxC"] := by
    decide
  rw [hl] at hm
  have hh : h = String.data " -1,3 +1,4 @@\n ctxA\n+added1\n ctxB\n-removed1\n ctxC" := by
    simpa using hm
  subst hh
  have hhead : findHeader
      (String.data " -1,3 +1,4 @@\n ctxA\n+added1\n ctxB\n-removed1\n ctxC")
      = some (1, 1) := by decide
  rw [hhead] at hab
  injection hab with hp
  obtain ⟨ha, hb⟩ := Prod.mk.inj hp
  omega

/-- The hunk splitter never produces an empty list of segments. -/
theorem splitHunksAux_ne_nil (l acc : List Char) (b : Bool) :
    splitHunksAux l acc b ≠ [] := by
  induction l, acc, b using splitHunksAux.induct <;> simp_all [splitHunksAux]

/-- Joining the segments of the splitter with "@@" reconstructs its input:
the split removes exactly the "@@" delimiters found at line starts. -/
theorem joinHunks_splitHunksAux (l acc : List Char) (b : Bool) :
    joinHunks (splitHunksAux l acc b) = acc.reverse ++ l := by
  induction l, acc, b using splitHunksAux.induct with
  | case1 acc b => simp [splitHunksAux, joinHunks]
  | case2 rest acc ih =>
    obtain ⟨x, xs, hx⟩ := List.exists_cons_of_ne_nil (splitHunksAux_ne_nil rest [] false)
    simp only [splitHunksAux, hx, joinHunks]
    rw [← hx, ih]
    simp
  | case3 c rest acc b hne ih =>
    simp_all [splitHunksAux, joinHunks, List.append_assoc]

/-- The header search returns the captures of the first position at which
the pattern matches: every earlier position fails to match. -/
theorem findHeader_first_occurrence (cs : List Char) :
    ∀ o n, findHeader cs = some (o, n) →
      ∃ i, parseHeaderAt (cs.drop i) = some (o, n) ∧
        ∀ j < i, parseHeaderAt (cs.drop j) = none := by
  induction cs with
  | nil => intro o n h; simp [findHeader] at h
  | cons c rest ih =>
    intro o n h
    simp only [findHeader] at h
    cases hp : parseHeaderAt (c :: rest) with
    | some r =>
      rw [hp] at h
      have h' : some r = some (o, n) := h
      refine ⟨0, ?_, fun j hj => absurd hj (by omega)⟩
      rw [List.drop_zero, hp]; exact h'
    | none =>
      rw [hp] at h
      have h' : findHeader rest = some (o, n) := h
      obtain ⟨i, hi, hj⟩ := ih o n h'
      refine ⟨i + 1, ?_, ?_⟩
      · rw [List.drop_succ_cons]; exact hi
      · intro j hjlt
        cases j with
        | zero => rw [List.drop_zero]; exact hp
        | succ j' => rw [List.drop_succ_cons]; exact hj j' (by omega)

/-- C9. The locator splits the text at every line-start "@@" (joining the
segments back with "@@" reconstructs the text exactly); within a segment the
header pattern is searched for anywhere — the counters come from the first
position where it matches — and the body walk starts at the segment's second
line regardless of where the pattern matched, as the concrete text whose
pattern sits on the segment's second line shows: that very line is walked as
a context line. -/
theorem split_and_header_search (d : String) (t : Int) (cs : List Char) (o n : Nat)
    (hfound : findHeader cs = some (o, n)) :
    joinHunks (splitHunks d.data) = d.data ∧
    (∃ i, parseHeaderAt (cs.drop i) = some (o, n) ∧
        ∀ j < i, parseHeaderAt (cs.drop j) = none) ∧
    (∀ hunk : List Char, ∀ q, findHeader hunk = some q →
        scanHunk hunk t
          = scanLines t ((splitLines hunk).drop 1) (Int.ofNat q.1) (Int.ofNat q.2)) ∧
    findLineInDiff "@@ junk\n -1,2 +3,4 @@\n a" 3 = some ⟨some 1, 3⟩ := by
  refine ⟨?_, findHeader_first_occurrence cs o n hfound, ?_, by decide⟩
  · simpa [splitHunks] using joinHunks_splitHunksAux d.data [] true
  · intro hunk q hq
    unfold scanHunk
    rw [hq]

/-- Witness for C9 at the segment of the demo text: the pattern is found on
its second line with captures (1, 3). -/
theorem split_and_header_search_witness :
    joinHunks (splitHunks (String.data "@@ junk\n -1,2 +3,4 @@\n a"))
      = String.data "@@ junk\n -1,2 +3,4 @@\n a" ∧
    (∃ i, parseHeaderAt ((String.data " junk\n -1,2 +3,4 @@\n a").drop i) = some (1, 3) ∧
        ∀ j < i, parseHeaderAt ((String.data " junk\n -1,2 +3,4 @@\n a").drop j) = none) ∧
    (∀ hunk : List Char, ∀ q, findHeader hunk = some q →
        scanHunk hunk 3
          = scanLines 3 ((splitLines hunk).drop 1) (Int.ofNat q.1) (Int.ofNat q.2)) ∧
    findLineInDiff "@@ junk\n -1,2 +3,4 @@\n a" 3 = some ⟨some 1, 3⟩ :=
  split_and_header_search "@@ junk\n -1,2 +3,4 @@\n a" 3
    (String.data " junk\n -1,2 +3,4 @@\n a") 1 3 (by decide)

/-- The per-comment request lists of consecutive comments concatenate. -/
theorem allCommentActions_append (changes : List FileChange) (refs : DiffRefs)
    (posOk fbOk : ReviewComment → Bool) (l1 l2 : List ReviewComment) :
    allCommentActions changes refs posOk fbOk (l1 ++ l2)
      = allCommentActions changes refs posOk fbOk l1
        ++ allCommentActions changes refs posOk fbOk l2 := by
  induction l1 with
  | nil => rfl
  | cons c cs ih => simp [allCommentActions, ih]

/-- C6. A comment whose positional post the remote service rejects does not
abort the run: its requests are the rejected positional post followed by a
fallback note, and in a run containing it every earlier and later comment is
still processed, with the summary still issued at the end. -/
theorem rejected_positional_falls_back (changes : List FileChange) (refs : DiffRefs)
    (posOk fbOk : ReviewComment → Bool) (pre post : List ReviewComment)
    (c : ReviewComment) (p : DiffPosition)
    (hpos : computePositionData changes refs c = some p)
    (hrej : posOk c = false) :
    commentActions changes refs posOk fbOk c
      = [ApiAction.discussionPost c.file c.line p, ApiAction.fallbackNote c.file c.line] ∧
    postDiscussionActions true changes refs posOk fbOk (pre ++ c :: post)
      = allCommentActions changes refs posOk fbOk pre
        ++ (ApiAction.discussionPost c.file c.line p
            :: ApiAction.fallbackNote c.file c.line
            :: allCommentActions changes refs posOk fbOk post)
        ++ [ApiAction.summaryNote (pre ++ c :: post).length
             (countOutcome .positional (runOutcomes changes refs posOk fbOk (pre ++ c :: post)))
             (countOutcome .fallback (runOutcomes changes refs posOk fbOk (pre ++ c :: post)))] := by
  have h1 : commentActions changes refs posOk fbOk c
      = [ApiAction.discussionPost c.file c.line p, ApiAction.fallbackNote c.file c.line] := by
    unfold commentActions
    rw [hpos]
    simp [hrej]
  refine ⟨h1, ?_⟩
  unfold postDiscussionActions
  rw [if_pos rfl, allCommentActions_append]
  simp [allCommentActions, h1, List.append_assoc]

/-- Witness for C6: an always-rejecting positional endpoint makes the
comment degrade to the fallback note. -/
theorem rejected_positional_falls_back_witness :
    commentActions [⟨"f.vue", "f.vue", "@@ -1,1 +1,1 @@\n x"⟩] ⟨"b", "h", "s"⟩
        (fun _ => false) (fun _ => true) ⟨"f.vue", 1, "desc", none⟩
      = [ApiAction.discussionPost "f.vue" 1 ⟨"b", "h", "s", "f.vue", "f.vue", "text", 1, some 1⟩,
         ApiAction.fallbackNote "f.vue" 1] :=
  (rejected_positional_falls_back [⟨"f.vue", "f.vue", "@@ -1,1 +1,1 @@\n x"⟩] ⟨"b", "h", "s"⟩
    (fun _ => false) (fun _ => true) [] [] ⟨"f.vue", 1, "desc", none⟩
    ⟨"b", "h", "s", "f.vue", "f.vue", "text", 1, some 1⟩ (by decide) rfl).1

/-- C7. The changed-file lookup checks each change's new path first and then
its old path, scanning the list in order (so a file renamed away from the
comment's path is still found through its old path); the matched change's
diff text is exactly what is handed to `findLineInDiff`. -/
theorem comment_file_matching (changes rest : List FileChange) (refs : DiffRefs)
    (ch mch : FileChange) (f : String) (c : ReviewComment)
    (hfound : findFileChange changes c.file = some mch)
    (hdiff : mch.diff ≠ "") :
    (findFileChange (ch :: rest) f
       = if ch.new_path = f then some ch
         else if ch.old_path = f then some ch
         else findFileChange rest f) ∧
    ((∃ x ∈ changes, x.new_path = f ∨ x.old_path = f) →
        (findFileChange changes f).isSome = true) ∧
    computePositionData changes refs c
      = (findLineInDiff mch.diff c.line).map (buildPosition refs mch) := by
  refine ⟨?_, ?_, ?_⟩
  · unfold findFileChange
    by_cases h1 : ch.new_path = f
    · simp [List.find?, h1]
    · by_cases h2 : ch.old_path = f
      · simp [List.find?, h1, h2]
      · have hb : (ch.new_path == f || ch.old_path == f) = false := by simp [h1, h2]
        simp [List.find?, hb, h1, h2]
  · intro ⟨x, hx, hor⟩
    unfold findFileChange
    rw [List.find?_isSome]
    exact ⟨x, hx, by simpa using hor⟩
  · unfold computePositionData
    rw [hfound]
    exact if_neg hdiff

/-- Witness for C7: a renamed file is matched through its old path and its
diff is handed to the locator. -/
theorem comment_file_matching_witness :
    computePositionData [⟨"renamed_new.vue", "orig.vue", "@@ -1,1 +1,1 @@\n x"⟩]
        ⟨"b", "h", "s"⟩ ⟨"orig.vue", 1, "d", none⟩
      = (findLineInDiff "@@ -1,1 +1,1 @@\n x" 1).map
          (buildPosition ⟨"b", "h", "s"⟩ ⟨"renamed_new.vue", "orig.vue", "@@ -1,1 +1,1 @@\n x"⟩) :=
  (comment_file_matching [⟨"renamed_new.vue", "orig.vue", "@@ -1,1 +1,1 @@\n x"⟩] []
    ⟨"b", "h", "s"⟩ ⟨"renamed_new.vue", "orig.vue", "@@ -1,1 +1,1 @@\n x"⟩
    ⟨"renamed_new.vue", "orig.vue", "@@ -1,1 +1,1 @@\n x"⟩ "orig.vue"
    ⟨"orig.vue", 1, "d", none⟩ (by decide) (by decide)).2.2

/-- No per-comment request is the summary note. -/
theorem commentActions_not_summary (changes : List FileChange) (refs : DiffRefs)
    (posOk fbOk : ReviewComment → Bool) (c : ReviewComment) :
    ∀ a ∈ commentActions changes refs posOk fbOk c, isSummaryNote a = false := by
  intro a ha
  cases hc : computePositionData changes refs c with
  | none =>
    have heq : commentActions changes refs posOk fbOk c
        = [ApiAction.fallbackNote c.file c.line] := by
      unfold commentActions; rw [hc]
    rw [heq] at ha
    have : a = ApiAction.fallbackNote c.file c.line := by simpa using ha
    subst this; rfl
  | some p =>
    by_cases hp : posOk c = true
    · have heq : commentActions changes refs posOk fbOk c
          = [ApiAction.discussionPost c.file c.line p] := by
        unfold commentActions; rw [hc]; exact if_pos hp
      rw [heq] at ha
      have : a = ApiAction.discussionPost c.file c.line p := by simpa using ha
      subst this; rfl
    · have heq : commentActions changes refs posOk fbOk c
          = [ApiAction.discussionPost c.file c.line p, ApiAction.fallbackNote c.file c.line] := by
        unfold commentActions; rw [hc]; exact if_neg hp
      rw [heq] at ha
      have : a = ApiAction.discussionPost c.file c.line p ∨
          a = ApiAction.fallbackNote c.file c.line := by simpa using ha
      rcases this with h | h <;> (subst h; rfl)

/-- Filtering the comment requests for summary notes yields nothing. -/
theorem filter_summary_allCommentActions (changes : List FileChange) (refs : DiffRefs)
    (posOk fbOk : ReviewComment → Bool) (comments : List ReviewComment) :
    (allCommentActions changes refs posOk fbOk comments).filter isSummaryNote = [] := by
  induction comments with
  | nil => rfl
  | cons c cs ih =>
    simp only [allCommentActions, List.filter_append, ih, List.append_nil]
    rw [List.filter_eq_nil_iff]
    intro a ha
    simp [commentActions_not_summary changes refs posOk fbOk c a ha]

/-- Positional successes and fallback successes are disjoint outcomes, so
their counts sum to at most the number of comments. -/
theorem countOutcome_disjoint_le (l : List PostOutcome) :
    countOutcome .positional l + countOutcome .fallback l ≤ l.length := by
  induction l with
  | nil => simp [countOutcome]
  | cons x xs ih =>
    simp only [countOutcome, List.length_cons]
    cases x <;> simp <;> omega

/-- C10. On a run whose two initial fetches succeed, the request trace is
the per-comment requests followed by exactly one summary note — the only
summary in the trace — reporting the comment total, the accepted positional
posts and the accepted fallback notes; the two counts sum to at most the
total. (A failing summary post is caught inside `postSummary` and only
logged, so the note's issuance appears in the trace unconditionally.) -/
theorem summary_posted_once (changes : List FileChange) (refs : DiffRefs)
    (posOk fbOk : ReviewComment → Bool) (comments : List ReviewComment) :
    postDiscussionActions true changes refs posOk fbOk comments
      = allCommentActions changes refs posOk fbOk comments
        ++ [ApiAction.summaryNote comments.length
             (countOutcome .positional (runOutcomes changes refs posOk fbOk comments))
             (countOutcome .fallback (runOutcomes changes refs posOk fbOk comments))] ∧
    (postDiscussionActions true changes refs posOk fbOk comments).filter isSummaryNote
      = [ApiAction.summaryNote comments.length
          (countOutcome .positional (runOutcomes changes refs posOk fbOk comments))
          (countOutcome .fallback (runOutcomes changes refs posOk fbOk comments))] ∧
    countOutcome .positional (runOutcomes changes refs posOk fbOk comments)
      + countOutcome .fallback (runOutcomes changes refs posOk fbOk comments)
      ≤ comments.length := by
  refine ⟨rfl, ?_, ?_⟩
  · unfold postDiscussionActions
    rw [if_pos rfl, List.filter_append, filter_summary_allCommentActions]
    simp [isSummaryNote]
  · simpa [runOutcomes] using
      countOutcome_disjoint_le (runOutcomes changes refs posOk fbOk comments)

end GitLabReview
